import Mathlib

/-!
Verification of the FHMP Flora – Site Characteristics app (`fhmp_app.py`).

Shallow embedding notes:
* Files are modelled at the decoded-text level: a file is `Option (List Char)`
  (`none` = the file does not exist).  Python's universal-newline translation
  happens below this level, so physical lines are separated by `'\n'` alone.
* `json.dumps(record, ensure_ascii=False)` is modelled by `dumpsFlatObj`,
  which covers exactly the objects the app serialises: one flat JSON object
  whose values are strings and ints (the export record), with the default
  separators `", "` and `": "` and the default string escaping.
* `json.loads` is modelled by `pyLoads`, a fuel-based recursive-descent
  parser for JSON values.  Two simplifications against CPython's decoder:
  numbers are integers only (no floats / NaN / Infinity), and a `\uXXXX`
  escape decodes through `Char.ofNat` (no surrogate-pair pairing).  No claim
  depends on these corners.
* Python's `\W` in `re.sub(r'\W+', '_', site)` is modelled over ASCII word
  characters (letters, digits, underscore); the claims only involve ASCII.
* All definitions use structural recursion (fuel where needed) so that every
  concrete evaluation reduces in the kernel.
-/

namespace FHMP

/-- The characters of a string literal, as a list. -/
def chars (s : String) : List Char := s.data

/-- The newline character, the physical line separator of the log file. -/
def nl : Char := '\n'

/-- JSON whitespace (the characters skipped by Python's JSON scanner). -/
def isJsonWs (c : Char) : Bool :=
  c = ' ' || c = '\t' || c = '\n' || c = '\r'

/-- Whitespace for Python's `str.strip()` (ASCII part). -/
def pySpace (c : Char) : Bool :=
  c = ' ' || c = '\t' || c = '\n' || c = '\r' || c = '\x0b' || c = '\x0c'

/-- Drop leading JSON whitespace. -/
def skipWs (s : List Char) : List Char := s.dropWhile isJsonWs

/-- Python `str.strip()`: drop whitespace from both ends. -/
def pyStrip (s : List Char) : List Char :=
  ((s.dropWhile pySpace).reverse.dropWhile pySpace).reverse

/-- JSON values, as produced by `json.loads` (integers only for numbers). -/
inductive Json where
  | null : Json
  | bool : Bool → Json
  | num : Int → Json
  | str : List Char → Json
  | arr : List Json → Json
  | obj : List (List Char × Json) → Json

/-- A scalar JSON value (not an array and not an object). -/
def Json.isScalar : Json → Prop
  | Json.arr _ => False
  | Json.obj _ => False
  | _ => True

/-- Python truthiness of a JSON value (`bool(v)`). -/
def jTruthy : Json → Bool
  | Json.null => false
  | Json.bool b => b
  | Json.num n => n != 0
  | Json.str s => !s.isEmpty
  | Json.arr xs => !xs.isEmpty
  | Json.obj fs => !fs.isEmpty

/-- `dict.get k`: the value of the last occurrence of `k` (Python keeps the
last duplicate when a JSON object is decoded into a dict). -/
def jLookup (fields : List (List Char × Json)) (key : List Char) : Option Json :=
  (fields.filter (fun p => p.1 == key)).getLast?.map (fun p => p.2)

/-- `d[k] = v` on a decoded JSON object: overwrite an existing key in place,
otherwise append the new key at the end (Python dict insertion order). -/
def setKey (fields : List (List Char × Json)) (key : List Char) (v : Json) :
    List (List Char × Json) :=
  if fields.any (fun p => p.1 == key) then
    fields.map (fun p => if p.1 == key then (key, v) else p)
  else fields ++ [(key, v)]

/-! ### Encoding (`json.dumps` on the app's flat record objects) -/

/-- Decimal digits of `n`, most significant first (fuel-based so it reduces). -/
def natDigitsAux : Nat → Nat → List Char → List Char
  | 0, _, acc => acc
  | fuel + 1, n, acc =>
    if n < 10 then Nat.digitChar n :: acc
    else natDigitsAux fuel (n / 10) (Nat.digitChar (n % 10) :: acc)

/-- Decimal digits of `n`, most significant first. -/
def natDigits (n : Nat) : List Char := natDigitsAux (n + 1) n []

/-- `json.dumps` of an integer. -/
def encodeInt (n : Int) : List Char :=
  if n < 0 then '-' :: natDigits n.natAbs else natDigits n.toNat

/-- `json.dumps` escaping of one character (`ensure_ascii=False`): escape the
quote, the backslash and control characters, emit everything else raw. -/
def escChar (c : Char) : List Char :=
  if c = '"' then ['\\', '"']
  else if c = '\\' then ['\\', '\\']
  else if c = '\n' then ['\\', 'n']
  else if c = '\t' then ['\\', 't']
  else if c = '\r' then ['\\', 'r']
  else if c = '\x08' then ['\\', 'b']
  else if c = '\x0c' then ['\\', 'f']
  else if c.toNat < 32 then
    ['\\', 'u', '0', '0', Nat.digitChar (c.toNat / 16), Nat.digitChar (c.toNat % 16)]
  else [c]

/-- `json.dumps` escaping of a string body. -/
def escString (s : List Char) : List Char :=
  s.foldr (fun c acc => escChar c ++ acc) []

/-- `json.dumps` of a scalar value (the only values in the app's records). -/
def encodeScalarJson : Json → List Char
  | Json.null => chars "null"
  | Json.bool true => chars "true"
  | Json.bool false => chars "false"
  | Json.num n => encodeInt n
  | Json.str s => '"' :: (escString s ++ ['"'])
  | Json.arr _ => []
  | Json.obj _ => []

/-- `json.dumps` of the key/value items of a flat object, with the default
separators `", "` and `": "`. -/
def encodeFieldsFlat : List (List Char × Json) → List Char
  | [] => []
  | [(k, v)] => '"' :: (escString k ++ ('"' :: ':' :: ' ' :: encodeScalarJson v))
  | (k, v) :: f2 :: fr =>
    '"' :: (escString k ++ ('"' :: ':' :: ' ' ::
      (encodeScalarJson v ++ (',' :: ' ' :: encodeFieldsFlat (f2 :: fr)))))

/-- `json.dumps` of a flat JSON object (string/int values). -/
def dumpsFlatObj (fields : List (List Char × Json)) : List Char :=
  '\x7b' :: (encodeFieldsFlat fields ++ ['\x7d'])

/-! ### Parsing (`json.loads`) -/

/-- The numeric value of one hexadecimal digit. -/
def hexVal (c : Char) : Option Nat :=
  if '0' ≤ c ∧ c ≤ '9' then some (c.toNat - 48)
  else if 'a' ≤ c ∧ c ≤ 'f' then some (c.toNat - 87)
  else if 'A' ≤ c ∧ c ≤ 'F' then some (c.toNat - 55)
  else none

/-- Decode one short escape (the character after a backslash). -/
def decodeEsc (c : Char) : Option Char :=
  if c = '"' then some '"'
  else if c = '\\' then some '\\'
  else if c = '/' then some '/'
  else if c = 'n' then some '\n'
  else if c = 't' then some '\t'
  else if c = 'r' then some '\r'
  else if c = 'b' then some '\x08'
  else if c = 'f' then some '\x0c'
  else none

/-- Decode one escape sequence (the input starts just after the backslash):
returns the decoded character and the remaining input. -/
def unescapeStep : List Char → Option (Char × List Char)
  | [] => none
  | e :: r2 =>
    if e = 'u' then
      match r2 with
      | h1 :: h2 :: h3 :: h4 :: r3 =>
        match hexVal h1, hexVal h2, hexVal h3, hexVal h4 with
        | some a, some b, some d0, some e0 =>
          some (Char.ofNat (((a * 16 + b) * 16 + d0) * 16 + e0), r3)
        | none, _, _, _ => none
        | some _, none, _, _ => none
        | some _, some _, none, _ => none
        | some _, some _, some _, none => none
      | [] => none
      | [_] => none
      | [_, _] => none
      | [_, _, _] => none
    else (decodeEsc e).map (fun ch => (ch, r2))

/-- Parse the body of a JSON string after the opening quote, up to and
including the closing quote.  Fuel-based; one unit per decoded character. -/
def parseStrBody : Nat → List Char → Option (List Char × List Char)
  | 0, _ => none
  | _ + 1, [] => none
  | fuel + 1, c :: r =>
    if c = '"' then some ([], r)
    else if c = '\\' then
      match unescapeStep r with
      | some (ch, r2) => (parseStrBody fuel r2).map (fun p => (ch :: p.1, p.2))
      | none => none
    else if c.toNat < 32 then none
    else (parseStrBody fuel r).map (fun p => (c :: p.1, p.2))

/-- Is the head of the list a decimal digit? -/
def headDigit : List Char → Bool
  | [] => false
  | c :: _ => c.isDigit

/-- Consume a maximal run of decimal digits, accumulating their value. -/
def takeDigitsAcc (acc : Nat) : List Char → Nat × List Char
  | [] => (acc, [])
  | c :: r =>
    if c.isDigit then takeDigitsAcc (acc * 10 + (c.toNat - 48)) r
    else (acc, c :: r)

/-- Parse a nonempty run of decimal digits. -/
def parseNatNum (s : List Char) : Option (Nat × List Char) :=
  if headDigit s then some (takeDigitsAcc 0 s) else none

/-- Expect a literal suffix (`ull`, `rue`, `alse`), returning `j`. -/
def expectLit : List Char → List Char → Json → Option (Json × List Char)
  | [], s, j => some (j, s)
  | c :: lit, d :: s, j => if d = c then expectLit lit s j else none
  | _ :: _, [], _ => none

/-- Parser mode: a JSON value, the items of an object, or of an array. -/
inductive PMode where
  | val : PMode
  | objItems : PMode
  | arrItems : PMode

/-- The JSON parser core.  In `val` mode it parses one value (leading
whitespace already skipped by the caller); in `objItems` / `arrItems` mode it
parses the comma-separated items after a `⟨`/`[` up to and including the
closing bracket, returning the `Json.obj`/`Json.arr`.  Structural in `fuel`. -/
def parseCore : Nat → PMode → List Char → Option (Json × List Char)
  | 0, _, _ => none
  | _ + 1, PMode.val, [] => none
  | fuel + 1, PMode.val, c :: r =>
    if c.isDigit then
      (parseNatNum (c :: r)).map (fun p => (Json.num (p.1 : Int), p.2))
    else if c = '-' then
      (parseNatNum r).map (fun p => (Json.num (-(p.1 : Int)), p.2))
    else if c = '"' then
      (parseStrBody (r.length + 1) r).map (fun p => (Json.str p.1, p.2))
    else if c = '\x7b' then
      match skipWs r with
      | [] => none
      | d :: r2 =>
        if d = '\x7d' then some (Json.obj [], r2)
        else parseCore fuel PMode.objItems (d :: r2)
    else if c = '[' then
      match skipWs r with
      | [] => none
      | d :: r2 =>
        if d = ']' then some (Json.arr [], r2)
        else parseCore fuel PMode.arrItems (d :: r2)
    else if c = 'n' then expectLit (chars "ull") r Json.null
    else if c = 't' then expectLit (chars "rue") r (Json.bool true)
    else if c = 'f' then expectLit (chars "alse") r (Json.bool false)
    else none
  | _ + 1, PMode.objItems, [] => none
  | fuel + 1, PMode.objItems, c :: r =>
    if c = '"' then
      match parseStrBody (r.length + 1) r with
      | none => none
      | some (key, r2) =>
        match skipWs r2 with
        | ':' :: r3 =>
          match parseCore fuel PMode.val (skipWs r3) with
          | none => none
          | some (v, r4) =>
            match skipWs r4 with
            | ',' :: r5 =>
              match parseCore fuel PMode.objItems (skipWs r5) with
              | some (Json.obj fs, r6) => some (Json.obj ((key, v) :: fs), r6)
              | _ => none
            | d :: r5 => if d = '\x7d' then some (Json.obj [(key, v)], r5) else none
            | [] => none
        | _ => none
    else none
  | fuel + 1, PMode.arrItems, s =>
    match parseCore fuel PMode.val s with
    | none => none
    | some (v, r) =>
      match skipWs r with
      | ',' :: r2 =>
        match parseCore fuel PMode.arrItems (skipWs r2) with
        | some (Json.arr vs, r3) => some (Json.arr (v :: vs), r3)
        | _ => none
      | d :: r2 => if d = ']' then some (Json.arr [v], r2) else none
      | [] => none

/-- `json.loads`: parse one JSON value, allowing surrounding whitespace;
fail if anything else is left over. -/
def pyLoads (s : List Char) : Option Json :=
  match parseCore (s.length + 1) PMode.val (skipWs s) with
  | some (j, rest) => if skipWs rest = [] then some j else none
  | none => none

/-! ### Physical lines of a text file -/

/-- Split into physical lines, each keeping its trailing `'\n'` (the last
line may have none).  This is what iterating / `readlines()` yields. -/
def splitAux (acc : List Char) : List Char → List (List Char)
  | [] => if acc.isEmpty then [] else [acc.reverse]
  | c :: rest =>
    if c = nl then (acc.reverse ++ [nl]) :: splitAux [] rest
    else splitAux (c :: acc) rest

/-- The physical lines of a file's content. -/
def splitAfterNewlines (content : List Char) : List (List Char) :=
  splitAux [] content

/-! ### The export record (output of `collect_export_record`) -/

/-- The flat export record, 21 fields in the canonical order of
`collect_export_record` / `COLUMNS`. -/
structure Record where
  submission_id : List Char
  date : List Char
  site : List Char
  vegetation : List Char
  dominant_species : List Char
  landform : List Char
  fire_presence : List Char
  fire_intensity : List Char
  dieback : List Char
  drought_stress : List Char
  stressed_taxa : List Char
  weeds_species : List Char
  weeds_percent : Nat
  animals_rabbits : Nat
  animals_kangaroo : Nat
  animals_pigs : Nat
  animals_hdc : Nat
  animals_other : Nat
  animals_other_text : List Char
  other_comments : List Char
  summary_image : List Char
deriving DecidableEq

/-- The record as the JSON object fields `json.dumps` serialises, in dict
insertion order. -/
def recordFields (r : Record) : List (List Char × Json) :=
  [ (chars "submission_id", Json.str r.submission_id),
    (chars "date", Json.str r.date),
    (chars "site", Json.str r.site),
    (chars "vegetation", Json.str r.vegetation),
    (chars "dominant_species", Json.str r.dominant_species),
    (chars "landform", Json.str r.landform),
    (chars "fire_presence", Json.str r.fire_presence),
    (chars "fire_intensity", Json.str r.fire_intensity),
    (chars "dieback", Json.str r.dieback),
    (chars "drought_stress", Json.str r.drought_stress),
    (chars "stressed_taxa", Json.str r.stressed_taxa),
    (chars "weeds_species", Json.str r.weeds_species),
    (chars "weeds_percent", Json.num (r.weeds_percent : Int)),
    (chars "animals_rabbits", Json.num (r.animals_rabbits : Int)),
    (chars "animals_kangaroo", Json.num (r.animals_kangaroo : Int)),
    (chars "animals_pigs", Json.num (r.animals_pigs : Int)),
    (chars "animals_hdc", Json.num (r.animals_hdc : Int)),
    (chars "animals_other", Json.num (r.animals_other : Int)),
    (chars "animals_other_text", Json.str r.animals_other_text),
    (chars "other_comments", Json.str r.other_comments),
    (chars "summary_image", Json.str r.summary_image) ]

/-- The record as a JSON value. -/
def recordJson (r : Record) : Json := Json.obj (recordFields r)

/-- `json.dumps(record, ensure_ascii=False)` for an export record. -/
def dumpsRecord (r : Record) : List Char := dumpsFlatObj (recordFields r)

/-! ### JSONL storage (`write_jsonl_record`, `read_jsonl_records`,
`load_jsonl_with_index`) -/

/-- `write_jsonl_record`: serialize the record as one JSON line and append
`line + "\n"` (mode `"a"` creates a missing file). -/
def write_jsonl_record (record : Record) (file : Option (List Char)) :
    Option (List Char) :=
  some ((file.getD []) ++ dumpsRecord record ++ [nl])

/-- The loop body shared by `read_jsonl_records` and `load_jsonl_with_index`:
strip the line; skip it if blank; otherwise `json.loads` it (`none` models
the swallowed parse exception). -/
def readLine (line : List Char) : Option Json :=
  let l := pyStrip line
  if l.isEmpty then none else pyLoads l

/-- `read_jsonl_records`: missing file yields `[]`; otherwise parse each
stripped line, skipping blank lines and lines that fail to parse. -/
def read_jsonl_records (file : Option (List Char)) : List Json :=
  match file with
  | none => []
  | some content => (splitAfterNewlines content).filterMap readLine

/-- The `"_idx"` key attached by `load_jsonl_with_index`. -/
def idxKey : List Char := chars "_idx"

/-- The loop body of `load_jsonl_with_index`: `i` is the `enumerate` counter
over physical lines.  A line whose JSON value is not an object is skipped,
because `rec["_idx"] = i` raises inside the `try` block. -/
def loadIdxAux : Nat → List (List Char) → List Json
  | _, [] => []
  | i, line :: rest =>
    (match readLine line with
     | some (Json.obj fields) => [Json.obj (setKey fields idxKey (Json.num (i : Int)))]
     | _ => []) ++ loadIdxAux (i + 1) rest

/-- `load_jsonl_with_index`: like `read_jsonl_records` but each decoded
object gets `"_idx" = its zero-based physical line offset`. -/
def load_jsonl_with_index (file : Option (List Char)) : List Json :=
  match file with
  | none => []
  | some content => loadIdxAux 0 (splitAfterNewlines content)

/-! ### Deletion (`delete_record_and_image_by_index`,
`delete_all_records_and_images`) -/

/-- The data directory state: the log file and the names of the files in the
summary-image directory (the directories themselves always exist, the app
creates them at startup). -/
structure FS where
  log : Option (List Char)
  images : List (List Char)
deriving DecidableEq

/-- What `delete_record_and_image_by_index` does about the image of the
target line: `some none` = no image to delete, `some (some name)` = delete
`name`, `none` = `os.path.join(img_dir, img_to_delete)` raises `TypeError`
(the parsed line has a truthy non-string `summary_image`, and the join is
outside the `try` block). -/
def lineImgAction (line : List Char) : Option (Option (List Char)) :=
  match pyLoads line with
  | some (Json.obj fields) =>
    match jLookup fields (chars "summary_image") with
    | some v =>
      if jTruthy v then
        match v with
        | Json.str s => some (some s)
        | _ => none
      else some none
    | none => some none
  | _ => some none

/-- `delete_record_and_image_by_index`.  The first component is
`some (success, image_name)` for a normal return and `none` for an uncaught
exception; the second is the resulting directory state.  The rewrite of the
log (temp file then `os.replace`) happens before the image handling, so the
log is already rewritten when the join raises. -/
def delete_record_and_image_by_index (target_idx : Int) (fs : FS) :
    Option (Bool × Option (List Char)) × FS :=
  match fs.log with
  | none => (some (false, none), fs)
  | some content =>
    let lines := splitAfterNewlines content
    if target_idx < 0 ∨ (lines.length : Int) ≤ target_idx then
      (some (false, none), fs)
    else
      let i := target_idx.toNat
      let newLog : Option (List Char) := some (lines.eraseIdx i).flatten
      match lineImgAction (lines.getD i []) with
      | none => (none, { fs with log := newLog })
      | some none => (some (true, none), { fs with log := newLog })
      | some (some name) =>
        (some (true, some name), { log := newLog, images := fs.images.erase name })

/-- Does the (lowercased) name end in `".png"`? -/
def endsPng (name : List Char) : Bool :=
  (chars ".png").isSuffixOf (name.map Char.toLower)

/-- `delete_all_records_and_images`: truncate the log if it exists, remove
every `.png` from the image directory, return the count removed. -/
def delete_all_records_and_images (fs : FS) : Nat × FS :=
  let log' : Option (List Char) :=
    match fs.log with
    | none => none
    | some _ => some []
  let deleted := (fs.images.filter endsPng).length
  (deleted, { log := log', images := fs.images.filter (fun n => !endsPng n) })

/-! ### The form state and `collect_export_record` -/

/-- The in-memory form state (`st.session_state.form`), with the fixed
category dicts flattened into named boolean / severity fields in the order
of the reference lists. -/
structure Form where
  date : List Char
  site : List Char
  veg_forest : Bool
  veg_woodland : Bool
  veg_shrubland : Bool
  veg_other : Bool
  vegetation_other : List Char
  dom_jarrah : Bool
  dom_marri : Bool
  dom_karri : Bool
  dom_wandoo : Bool
  dom_tingle : Bool
  dom_other : Bool
  dominant_other : List Char
  lf_upper : Bool
  lf_mid : Bool
  lf_lower : Bool
  lf_flat : Bool
  fire_presence : List Char
  fire_intensity : List Char
  dieback : List Char
  drought_stress : List Char
  stressed_taxa : List Char
  weeds_species : List Char
  weeds_percent : Nat
  an_rabbits : Nat
  an_kangaroo : Nat
  an_pigs : Nat
  an_hdc : Nat
  an_other : Nat
  animals_other_text : List Char
  other_comments : List Char

/-- An ASCII word character, modelling `\w` in `re.sub(r'\W+', '_', site)`. -/
def isWordChar (c : Char) : Bool := c.isAlpha || c.isDigit || c = '_'

/-- `re.sub(r'\W+', '_', s)`: replace each maximal run of non-word
characters by a single underscore.  `inRun` records whether we are inside a
non-word run whose underscore has already been emitted. -/
def subRun : Bool → List Char → List Char
  | _, [] => []
  | inRun, c :: cs =>
    if isWordChar c then c :: subRun false cs
    else if inRun then subRun true cs
    else '_' :: subRun true cs

/-- `re.sub(r'\W+', '_', s)`. -/
def subNonWordRuns (s : List Char) : List Char := subRun false s

/-- Python `s.strip("_")`: drop underscores from both ends. -/
def stripUnderscores (s : List Char) : List Char :=
  ((s.dropWhile (fun c => c = '_')).reverse.dropWhile (fun c => c = '_')).reverse

/-- `"; ".join(xs)`. -/
def joinSemi (xs : List (List Char)) : List Char :=
  List.intercalate (chars "; ") xs

/-- The vegetation list built by `collect_export_record`: the selected
non-"Other" categories in reference order, then `Other:<stripped text>` when
"Other" is checked and its text is non-blank. -/
def vegListOf (form : Form) : List (List Char) :=
  (if form.veg_forest then [chars "Forest"] else []) ++
  (if form.veg_woodland then [chars "Woodland"] else []) ++
  (if form.veg_shrubland then [chars "Shrubland"] else []) ++
  (if form.veg_other && !(pyStrip form.vegetation_other).isEmpty then
    [chars "Other:" ++ pyStrip form.vegetation_other] else [])

/-- The dominant-species list built by `collect_export_record`. -/
def domListOf (form : Form) : List (List Char) :=
  (if form.dom_jarrah then [chars "Jarrah"] else []) ++
  (if form.dom_marri then [chars "Marri"] else []) ++
  (if form.dom_karri then [chars "Karri"] else []) ++
  (if form.dom_wandoo then [chars "Wandoo"] else []) ++
  (if form.dom_tingle then [chars "Tingle"] else []) ++
  (if form.dom_other && !(pyStrip form.dominant_other).isEmpty then
    [chars "Other:" ++ pyStrip form.dominant_other] else [])

/-- The landform list built by `collect_export_record` (no "Other"). -/
def lfListOf (form : Form) : List (List Char) :=
  (if form.lf_upper then [chars "Upper slope"] else []) ++
  (if form.lf_mid then [chars "Midslope"] else []) ++
  (if form.lf_lower then [chars "Lower slope"] else []) ++
  (if form.lf_flat then [chars "Flat"] else [])

/-- `collect_export_record`. -/
def collect_export_record (form : Form) : Record :=
  let safe_site := stripUnderscores (subNonWordRuns form.site)
  { submission_id := (form.date.filter (fun c => c != '-')) ++ '_' :: safe_site
    date := form.date
    site := form.site
    vegetation := joinSemi (vegListOf form)
    dominant_species := joinSemi (domListOf form)
    landform := joinSemi (lfListOf form)
    fire_presence := form.fire_presence
    fire_intensity := form.fire_intensity
    dieback := form.dieback
    drought_stress := form.drought_stress
    stressed_taxa := form.stressed_taxa
    weeds_species := form.weeds_species
    weeds_percent := form.weeds_percent
    animals_rabbits := form.an_rabbits
    animals_kangaroo := form.an_kangaroo
    animals_pigs := form.an_pigs
    animals_hdc := form.an_hdc
    animals_other := form.an_other
    animals_other_text := form.animals_other_text
    other_comments := form.other_comments
    summary_image := [] }

/-! ### `validate_step` -/

/-- `validate_step(form, step) -> (is_ok, messages)`. -/
def validate_step (form : Form) (step : Nat) : Bool × List (List Char) :=
  let e0 :=
    if step = 0 then
      if (pyStrip form.site).isEmpty then
        [chars "Enter a Site name/code to continue."] else []
    else []
  let e1 :=
    if step = 1 then
      if form.veg_other && (pyStrip form.vegetation_other).isEmpty then
        [chars "Provide text for Vegetation → Other."] else []
    else []
  let e2 :=
    if step = 2 then
      if form.dom_other && (pyStrip form.dominant_other).isEmpty then
        [chars "Provide text for Dominant species → Other."] else []
    else []
  let e7 :=
    if step = 7 then
      if decide (0 < form.an_other) && (pyStrip form.animals_other_text).isEmpty then
        [chars "Provide notes for Animals → Other feral."] else []
    else []
  let errors := e0 ++ e1 ++ e2 ++ e7
  (errors.isEmpty, errors)

/-! ### The Finish & Export handler -/

/-- The "Finish & Export" click handler: build the record, render the
summary image to `<submission_id>.png`, set `summary_image`, then append to
the log.  `renderFails` abstracts the outcome of `draw_summary_image`
(PIL raster drawing and the disk write are outside this embedding): when it
fails, the exception propagates before `write_jsonl_record` runs, so the
handler returns no record and the state is unchanged. -/
def finishExportHandler (form : Form) (renderFails : Bool) (fs : FS) :
    Option Record × FS :=
  let record := collect_export_record form
  let imageName := record.submission_id ++ chars ".png"
  if renderFails then (none, fs)
  else
    let record' := { record with summary_image := imageName }
    let images' := if fs.images.contains imageName then fs.images
                   else fs.images ++ [imageName]
    (some record', { log := write_jsonl_record record' fs.log, images := images' })

/-! ### Shapes used in the claim statements -/

/-- A well-formed JSONL file: missing, empty, or ending in a newline (every
write through `write_jsonl_record` maintains this; it is what makes append
start a fresh physical line). -/
def wfJsonl : Option (List Char) → Prop
  | none => True
  | some content => content = [] ∨ content.getLast? = some nl

/-- One source line of a mixed log file: a valid record line, a malformed
line, or a blank line. -/
inductive LogLine where
  | valid : Record → LogLine
  | junk : List Char → LogLine
  | blank : List Char → LogLine

/-- The raw text of one source line (each line is newline-terminated). -/
def renderLine : LogLine → List Char
  | LogLine.valid r => dumpsRecord r ++ [nl]
  | LogLine.junk raw => raw ++ [nl]
  | LogLine.blank raw => raw ++ [nl]

/-- The raw text of a whole mixed log file. -/
def renderLog (ls : List LogLine) : List Char := (ls.map renderLine).flatten

/-- Side conditions making a `LogLine` what it claims to be: junk is a
single line that strips to something non-blank yet unparseable; blank is a
single line of whitespace. -/
def goodLine : LogLine → Prop
  | LogLine.valid _ => True
  | LogLine.junk raw => nl ∉ raw ∧ ¬ (pyStrip raw).isEmpty ∧ pyLoads (pyStrip raw) = none
  | LogLine.blank raw => ∀ c ∈ raw, pySpace c = true ∧ c ≠ nl

/-- The records a mixed log file should yield, in file order. -/
def expectedRecords (ls : List LogLine) : List Json :=
  ls.filterMap (fun l =>
    match l with
    | LogLine.valid r => some (recordJson r)
    | _ => none)

/-- The indexed records a mixed log file should yield: each record object
extended with `"_idx" = its physical line offset`, counting skipped lines. -/
def expectedIdxRecords : Nat → List LogLine → List Json
  | _, [] => []
  | i, LogLine.valid r :: rest =>
    Json.obj (recordFields r ++ [(idxKey, Json.num (i : Int))]) ::
      expectedIdxRecords (i + 1) rest
  | i, _ :: rest => expectedIdxRecords (i + 1) rest

/-- A physical line: nonempty, with no interior newline (only the final
character may be the newline). -/
def lineOk (l : List Char) : Prop := l ≠ [] ∧ nl ∉ l.dropLast

/-- A well-formed list of physical lines: every line `lineOk`, and every
line except the last newline-terminated. -/
def linesOk : List (List Char) → Prop
  | [] => True
  | [l] => lineOk l
  | l :: l2 :: r => lineOk l ∧ l.getLast? = some nl ∧ linesOk (l2 :: r)

end FHMP

namespace FHMP

/-! ### Concrete fixtures used in witnesses and counterexamples -/

/-- A concrete export record, as `collect_export_record` could produce. -/
def sampleRecord : Record :=
  { submission_id := chars "20240305_North_Block_2"
    date := chars "2024-03-05"
    site := chars "North Block #2"
    vegetation := chars "Forest"
    dominant_species := []
    landform := []
    fire_presence := chars "No evidence/>10 yrs"
    fire_intensity := []
    dieback := []
    drought_stress := []
    stressed_taxa := []
    weeds_species := []
    weeds_percent := 5
    animals_rabbits := 0
    animals_kangaroo := 1
    animals_pigs := 2
    animals_hdc := 3
    animals_other := 0
    animals_other_text := []
    other_comments := chars "with \"quotes\" and a\nnewline"
    summary_image := chars "20240305_North_Block_2.png" }

/-- A concrete filled-in form. -/
def sampleForm : Form :=
  { date := chars "2024-03-05"
    site := chars "North Block #2"
    veg_forest := true
    veg_woodland := false
    veg_shrubland := false
    veg_other := false
    vegetation_other := []
    dom_jarrah := true
    dom_marri := false
    dom_karri := false
    dom_wandoo := false
    dom_tingle := false
    dom_other := false
    dominant_other := []
    lf_upper := false
    lf_mid := true
    lf_lower := false
    lf_flat := false
    fire_presence := chars "No evidence/>10 yrs"
    fire_intensity := chars "No evidence"
    dieback := chars "No evidence"
    drought_stress := chars "No stress evident"
    stressed_taxa := []
    weeds_species := []
    weeds_percent := 0
    an_rabbits := 0
    an_kangaroo := 0
    an_pigs := 0
    an_hdc := 0
    an_other := 0
    animals_other_text := []
    other_comments := [] }

/-- A form whose "Other" flags are set while the paired texts are blank and
whose site is whitespace-only. -/
def blankForm : Form :=
  { sampleForm with
    site := chars "  "
    veg_other := true
    vegetation_other := chars " "
    dom_other := true
    dominant_other := []
    an_other := 2
    animals_other_text := chars "  " }

/-- A concrete mixed log: valid record, malformed line, blank line, valid
record. -/
def sampleLines : List LogLine :=
  [LogLine.valid sampleRecord, LogLine.junk (chars "oops not json"),
    LogLine.blank [' ', '\t'], LogLine.valid sampleRecord]

/-- A log file whose only line is a JSON object with a truthy non-string
`summary_image` (the value `1`). -/
def c2badContent : List Char := chars "\x7b\"summary_image\": 1\x7d\n"

/-- A two-line log file of plain JSON numbers. -/
def c2twoLines : List Char := chars "1\n2\n"

/-! ## Helper lemmas: characters, digits, whitespace -/

theorem digitChar_isDigit {d : Nat} (h : d < 10) :
    (Nat.digitChar d).isDigit = true := by
  interval_cases d <;> decide

theorem digitChar_toNat {d : Nat} (h : d < 10) :
    (Nat.digitChar d).toNat = 48 + d := by
  interval_cases d <;> decide

theorem hexVal_digitChar {d : Nat} (h : d < 16) :
    hexVal (Nat.digitChar d) = some d := by
  interval_cases d <;> decide

theorem digitChar_ne_nl {d : Nat} (h : d < 16) : Nat.digitChar d ≠ nl := by
  interval_cases d <;> decide

theorem isDigit_not_ws {c : Char} (h : c.isDigit = true) : isJsonWs c = false := by
  simp only [isJsonWs, Bool.or_eq_false_iff, decide_eq_false_iff_not]
  refine ⟨⟨⟨?_, ?_⟩, ?_⟩, ?_⟩ <;> rintro rfl <;> simp at h

theorem skipWs_cons_of_not_ws {c : Char} (h : isJsonWs c = false) (r : List Char) :
    skipWs (c :: r) = c :: r := by
  simp [skipWs, List.dropWhile_cons, h]

theorem skipWs_cons_ws {c : Char} (h : isJsonWs c = true) (r : List Char) :
    skipWs (c :: r) = skipWs r := by
  simp [skipWs, List.dropWhile_cons, h]

/-! ## Helper lemmas: decimal digits -/

theorem natDigitsAux_spec (n : Nat) : ∀ fuel acc, n < fuel →
    ∃ ds, natDigitsAux fuel n acc = ds ++ acc ∧ ds ≠ [] ∧
      (∀ c ∈ ds, c.isDigit = true) ∧
      (∀ acc0 : Nat,
        ds.foldl (fun a c => a * 10 + (c.toNat - 48)) acc0 =
          acc0 * 10 ^ ds.length + n) := by
  induction n using Nat.strong_induction_on with
  | _ n ih =>
    intro fuel acc h
    match fuel with
    | 0 => omega
    | f + 1 =>
      by_cases hn : n < 10
      · refine ⟨[Nat.digitChar n], by simp [natDigitsAux, hn], by simp, ?_, ?_⟩
        · intro c hc
          simp at hc
          subst hc
          exact digitChar_isDigit hn
        · intro acc0
          simp only [List.foldl_cons, List.foldl_nil, List.length_cons,
            List.length_nil, pow_succ, pow_zero, digitChar_toNat hn]
          omega
      · have hd : n / 10 < n := Nat.div_lt_self (by omega) (by omega)
        have hf : n / 10 < f := by omega
        obtain ⟨ds, h1, h2, h3, h4⟩ := ih (n / 10) hd f (Nat.digitChar (n % 10) :: acc) hf
        have hm : n % 10 < 10 := Nat.mod_lt _ (by omega)
        refine ⟨ds ++ [Nat.digitChar (n % 10)], ?_, by simp, ?_, ?_⟩
        · simp [natDigitsAux, hn, h1]
        · intro c hc
          rcases List.mem_append.mp hc with hc | hc
          · exact h3 c hc
          · simp at hc
            subst hc
            exact digitChar_isDigit hm
        · intro acc0
          rw [List.foldl_append, h4 acc0]
          simp [digitChar_toNat hm, List.length_append, pow_succ]
          ring_nf
          omega

theorem natDigits_spec (n : Nat) :
    ∃ ds, natDigits n = ds ∧ ds ≠ [] ∧ (∀ c ∈ ds, c.isDigit = true) ∧
      (∀ acc0 : Nat,
        ds.foldl (fun a c => a * 10 + (c.toNat - 48)) acc0 =
          acc0 * 10 ^ ds.length + n) := by
  obtain ⟨ds, h1, h2, h3, h4⟩ := natDigitsAux_spec n (n + 1) [] (by omega)
  exact ⟨ds, by simpa [natDigits] using h1, h2, h3, h4⟩

theorem takeDigitsAcc_append (ds : List Char) (hds : ∀ c ∈ ds, c.isDigit = true)
    (rest : List Char) (hrest : headDigit rest = false) :
    ∀ acc, takeDigitsAcc acc (ds ++ rest) = (ds.foldl (fun a c => a * 10 + (c.toNat - 48)) acc, rest) := by
  induction ds with
  | nil =>
    intro acc
    match rest, hrest with
    | [], _ => rfl
    | c :: r, hrest =>
      simp [headDigit] at hrest
      simp [takeDigitsAcc, hrest]
  | cons d t ih =>
    intro acc
    have hd : d.isDigit = true := hds d (by simp)
    simp only [List.cons_append, takeDigitsAcc, hd, if_pos, List.append_eq]
    rw [ih (fun c hc => hds c (by simp [hc]))]
    rfl

theorem parseNatNum_natDigits (n : Nat) (rest : List Char)
    (hrest : headDigit rest = false) :
    parseNatNum (natDigits n ++ rest) = some (n, rest) := by
  obtain ⟨ds, h1, h2, h3, h4⟩ := natDigits_spec n
  rw [h1]
  match ds, h2 with
  | d :: t, _ =>
    have hd : d.isDigit = true := h3 d (by simp)
    have hh : headDigit ((d :: t) ++ rest) = true := by simp [headDigit, hd]
    rw [parseNatNum, hh, if_pos rfl,
      takeDigitsAcc_append (d :: t) h3 rest hrest 0]
    have := h4 0
    simp at this
    simp [this]

end FHMP

namespace FHMP

/-! ## Helper lemmas: string escaping round-trip -/

theorem escString_cons (c : Char) (cs : List Char) :
    escString (c :: cs) = escChar c ++ escString cs := rfl

theorem escChar_length_pos (c : Char) : 0 < (escChar c).length := by
  unfold escChar
  split_ifs <;> simp

theorem escString_length_ge (s : List Char) : s.length ≤ (escString s).length := by
  induction s with
  | nil => simp [escString]
  | cons c cs ih =>
    rw [escString_cons]
    simp only [List.length_append, List.length_cons]
    have := escChar_length_pos c
    omega

theorem parseStrBody_esc (s : List Char) : ∀ (fuel : Nat) (rest : List Char),
    parseStrBody (fuel + s.length + 1) (escString s ++ '"' :: rest) = some (s, rest) := by
  induction s with
  | nil =>
    intro fuel rest
    simp [escString, parseStrBody]
  | cons c cs ih =>
    intro fuel rest
    rw [escString_cons, List.append_assoc]
    have harg : fuel + (c :: cs).length + 1 = (fuel + cs.length + 1) + 1 := by simp; omega
    rw [harg]
    by_cases h1 : c = '"'
    · subst h1
      rw [show parseStrBody ((fuel + cs.length + 1) + 1)
            (escChar '"' ++ (escString cs ++ '"' :: rest)) =
          (parseStrBody (fuel + cs.length + 1) (escString cs ++ '"' :: rest)).map
            (fun p => ('"' :: p.1, p.2)) from rfl, ih fuel rest]
      rfl
    · by_cases h2 : c = '\\'
      · subst h2
        rw [show parseStrBody ((fuel + cs.length + 1) + 1)
              (escChar '\\' ++ (escString cs ++ '"' :: rest)) =
            (parseStrBody (fuel + cs.length + 1) (escString cs ++ '"' :: rest)).map
              (fun p => ('\\' :: p.1, p.2)) from rfl, ih fuel rest]
        rfl
      · by_cases h3 : c = '\n'
        · subst h3
          rw [show parseStrBody ((fuel + cs.length + 1) + 1)
                (escChar '\n' ++ (escString cs ++ '"' :: rest)) =
              (parseStrBody (fuel + cs.length + 1) (escString cs ++ '"' :: rest)).map
                (fun p => ('\n' :: p.1, p.2)) from rfl, ih fuel rest]
          rfl
        · by_cases h4 : c = '\t'
          · subst h4
            rw [show parseStrBody ((fuel + cs.length + 1) + 1)
                  (escChar '\t' ++ (escString cs ++ '"' :: rest)) =
                (parseStrBody (fuel + cs.length + 1) (escString cs ++ '"' :: rest)).map
                  (fun p => ('\t' :: p.1, p.2)) from rfl, ih fuel rest]
            rfl
          · by_cases h5 : c = '\r'
            · subst h5
              rw [show parseStrBody ((fuel + cs.length + 1) + 1)
                    (escChar '\r' ++ (escString cs ++ '"' :: rest)) =
                  (parseStrBody (fuel + cs.length + 1) (escString cs ++ '"' :: rest)).map
                    (fun p => ('\r' :: p.1, p.2)) from rfl, ih fuel rest]
              rfl
            · by_cases h6 : c = '\x08'
              · subst h6
                rw [show parseStrBody ((fuel + cs.length + 1) + 1)
                      (escChar '\x08' ++ (escString cs ++ '"' :: rest)) =
                    (parseStrBody (fuel + cs.length + 1) (escString cs ++ '"' :: rest)).map
                      (fun p => ('\x08' :: p.1, p.2)) from rfl, ih fuel rest]
                rfl
              · by_cases h7 : c = '\x0c'
                · subst h7
                  rw [show parseStrBody ((fuel + cs.length + 1) + 1)
                        (escChar '\x0c' ++ (escString cs ++ '"' :: rest)) =
                      (parseStrBody (fuel + cs.length + 1) (escString cs ++ '"' :: rest)).map
                        (fun p => ('\x0c' :: p.1, p.2)) from rfl, ih fuel rest]
                  rfl
                · by_cases h8 : c.toNat < 32
                  · have hdc1 : hexVal (Nat.digitChar (c.toNat / 16)) = some (c.toNat / 16) :=
                      hexVal_digitChar (by omega)
                    have hdc2 : hexVal (Nat.digitChar (c.toNat % 16)) = some (c.toNat % 16) :=
                      hexVal_digitChar (by omega)
                    have hval : ((0 * 16 + 0) * 16 + c.toNat / 16) * 16 + c.toNat % 16 =
                        c.toNat := by omega
                    have hesc : escChar c =
                        ['\\', 'u', '0', '0', Nat.digitChar (c.toNat / 16),
                          Nat.digitChar (c.toNat % 16)] := by
                      simp [escChar, h1, h2, h3, h4, h5, h6, h7, h8]
                    have hu : unescapeStep ('u' :: '0' :: '0' ::
                        Nat.digitChar (c.toNat / 16) :: Nat.digitChar (c.toNat % 16) ::
                        (escString cs ++ '"' :: rest)) =
                        some (c, escString cs ++ '"' :: rest) := by
                      show (match hexVal '0', hexVal '0',
                          hexVal (Nat.digitChar (c.toNat / 16)),
                          hexVal (Nat.digitChar (c.toNat % 16)) with
                        | some a, some b, some d0, some e0 =>
                          some (Char.ofNat (((a * 16 + b) * 16 + d0) * 16 + e0),
                            escString cs ++ '"' :: rest)
                        | none, _, _, _ => none
                        | some _, none, _, _ => none
                        | some _, some _, none, _ => none
                        | some _, some _, some _, none => none) = _
                      rw [show hexVal '0' = some 0 from by decide, hdc1, hdc2]
                      show some (Char.ofNat
                          (((0 * 16 + 0) * 16 + c.toNat / 16) * 16 + c.toNat % 16),
                          escString cs ++ '"' :: rest) = _
                      rw [hval, Char.ofNat_toNat]
                    rw [hesc]
                    show (match unescapeStep ('u' :: '0' :: '0' ::
                        Nat.digitChar (c.toNat / 16) :: Nat.digitChar (c.toNat % 16) ::
                        (escString cs ++ '"' :: rest)) with
                      | some (ch, r2) =>
                        (parseStrBody (fuel + cs.length + 1) r2).map
                          (fun p : List Char × List Char => (ch :: p.1, p.2))
                      | none => none) = _
                    rw [hu]
                    show (parseStrBody (fuel + cs.length + 1)
                        (escString cs ++ '"' :: rest)).map
                      (fun p => (c :: p.1, p.2)) = _
                    rw [ih fuel rest]
                    rfl
                  · have hesc : escChar c = [c] := by
                      simp [escChar, h1, h2, h3, h4, h5, h6, h7, h8]
                    rw [hesc]
                    show parseStrBody ((fuel + cs.length + 1) + 1)
                      (c :: (escString cs ++ '"' :: rest)) = _
                    rw [parseStrBody, if_neg h1, if_neg h2, if_neg h8, ih fuel rest]
                    rfl

theorem parseStrBody_full (s rest : List Char) :
    parseStrBody ((escString s ++ '"' :: rest).length + 1) (escString s ++ '"' :: rest) =
      some (s, rest) := by
  have h : s.length ≤ (escString s ++ '"' :: rest).length := by
    simp only [List.length_append, List.length_cons]
    have := escString_length_ge s
    omega
  obtain ⟨k, hk⟩ := Nat.le.dest h
  have harg : (escString s ++ '"' :: rest).length + 1 = k + s.length + 1 := by omega
  rw [harg]
  exact parseStrBody_esc s k rest

end FHMP

namespace FHMP

/-! ## Helper lemmas: parsing back the encoded record -/

theorem expectLit_append (lit s : List Char) (j : Json) :
    expectLit lit (lit ++ s) j = some (j, s) := by
  induction lit with
  | nil => rfl
  | cons c t ih => simp [expectLit, ih]

theorem skipWs_encodeScalar (j : Json) (h : j.isScalar) (z : List Char) :
    skipWs (encodeScalarJson j ++ z) = encodeScalarJson j ++ z := by
  cases j with
  | null =>
    show skipWs ('n' :: ('u' :: 'l' :: 'l' :: z)) = 'n' :: ('u' :: 'l' :: 'l' :: z)
    exact skipWs_cons_of_not_ws (by decide) _
  | bool b =>
    cases b with
    | true =>
      show skipWs ('t' :: ('r' :: 'u' :: 'e' :: z)) = 't' :: ('r' :: 'u' :: 'e' :: z)
      exact skipWs_cons_of_not_ws (by decide) _
    | false =>
      show skipWs ('f' :: ('a' :: 'l' :: 's' :: 'e' :: z)) = 'f' :: ('a' :: 'l' :: 's' :: 'e' :: z)
      exact skipWs_cons_of_not_ws (by decide) _
  | num n =>
    by_cases hn : n < 0
    · simp only [encodeScalarJson, encodeInt, if_pos hn, List.cons_append]
      exact skipWs_cons_of_not_ws (by decide) _
    · simp only [encodeScalarJson, encodeInt, if_neg hn]
      obtain ⟨ds, hds, hne, hdig, _⟩ := natDigits_spec n.toNat
      rw [hds]
      match ds, hne with
      | d :: t, _ =>
        simp only [List.cons_append]
        exact skipWs_cons_of_not_ws (isDigit_not_ws (hdig d (by simp))) _
  | str s =>
    show skipWs ('"' :: ((escString s ++ ['"']) ++ z)) = '"' :: ((escString s ++ ['"']) ++ z)
    exact skipWs_cons_of_not_ws (by decide) _
  | arr xs => exact h.elim
  | obj fs => exact h.elim

theorem parseCore_val_scalar (j : Json) (h : j.isScalar) (fuel : Nat) (rest : List Char)
    (hrest : headDigit rest = false) :
    parseCore (fuel + 1) PMode.val (encodeScalarJson j ++ rest) = some (j, rest) := by
  cases j with
  | null => exact expectLit_append (chars "ull") rest Json.null
  | bool b =>
    cases b with
    | true => exact expectLit_append (chars "rue") rest (Json.bool true)
    | false => exact expectLit_append (chars "alse") rest (Json.bool false)
  | str s =>
    have e1 : encodeScalarJson (Json.str s) ++ rest = '"' :: (escString s ++ '"' :: rest) := by
      simp [encodeScalarJson]
    rw [e1]
    show (parseStrBody ((escString s ++ '"' :: rest).length + 1)
        (escString s ++ '"' :: rest)).map (fun p => (Json.str p.1, p.2)) = _
    rw [parseStrBody_full]
    rfl
  | num n =>
    cases n with
    | ofNat m =>
      have e1 : encodeScalarJson (Json.num (Int.ofNat m)) = natDigits m := by
        simp only [encodeScalarJson, encodeInt, if_neg (Int.not_lt.mpr (Int.ofNat_nonneg m))]
        simp
      obtain ⟨ds, hds, hne, hdig, _⟩ := natDigits_spec m
      match ds, hne with
      | d :: t, _ =>
        have e2 : encodeScalarJson (Json.num (Int.ofNat m)) ++ rest = d :: (t ++ rest) := by
          rw [e1, hds]
          simp
        rw [e2, parseCore, if_pos (hdig d (by simp))]
        have e3 : d :: (t ++ rest) = natDigits m ++ rest := by
          rw [hds]
          simp
        rw [e3, parseNatNum_natDigits m rest hrest]
        rfl
    | negSucc m =>
      have e1 : encodeScalarJson (Json.num (Int.negSucc m)) ++ rest =
          '-' :: (natDigits (m + 1) ++ rest) := by
        simp only [encodeScalarJson, encodeInt,
          if_pos (Int.negSucc_lt_zero m), Int.natAbs_negSucc]
        simp
      rw [e1]
      show (parseNatNum (natDigits (m + 1) ++ rest)).map
        (fun p => (Json.num (-(p.1 : Int)), p.2)) = _
      rw [parseNatNum_natDigits (m + 1) rest hrest]
      rfl
  | arr xs => exact h.elim
  | obj fs => exact h.elim

theorem encodeFields_cons_eq (q : List Char × Json) (l : List (List Char × Json)) :
    ∃ t, encodeFieldsFlat (q :: l) = '"' :: t := by
  obtain ⟨k, v⟩ := q
  cases l with
  | nil => exact ⟨_, rfl⟩
  | cons f2 fr => exact ⟨_, rfl⟩

theorem parseCore_objItems_enc (fsl : List (List Char × Json)) :
    (∀ p ∈ fsl, p.2.isScalar) → fsl ≠ [] →
    ∀ (fuel : Nat) (rest : List Char),
    parseCore (fuel + fsl.length + 1) PMode.objItems (encodeFieldsFlat fsl ++ '\x7d' :: rest) =
      some (Json.obj fsl, rest) := by
  induction fsl with
  | nil => intro _ hne; exact absurd rfl hne
  | cons q l ih =>
    intro h _ fuel rest
    obtain ⟨k, v⟩ := q
    have hv : v.isScalar := h (k, v) (by simp)
    cases l with
    | nil =>
      have e1 : encodeFieldsFlat [(k, v)] ++ '\x7d' :: rest =
          '"' :: (escString k ++ '"' :: (':' :: ' ' :: (encodeScalarJson v ++ '\x7d' :: rest))) := by
        simp [encodeFieldsFlat]
      have hlen : fuel + ([(k, v)] : List (List Char × Json)).length + 1 = (fuel + 1) + 1 := by
        simp only [List.length_cons, List.length_nil]
      rw [hlen, e1, parseCore, if_pos rfl]
      have s1 := parseStrBody_full k (':' :: ' ' :: (encodeScalarJson v ++ '\x7d' :: rest))
      have s2 : skipWs (':' :: ' ' :: (encodeScalarJson v ++ '\x7d' :: rest)) =
          ':' :: ' ' :: (encodeScalarJson v ++ '\x7d' :: rest) :=
        skipWs_cons_of_not_ws (by decide) _
      have s3 : skipWs (' ' :: (encodeScalarJson v ++ '\x7d' :: rest)) =
          encodeScalarJson v ++ '\x7d' :: rest := by
        rw [skipWs_cons_ws (by decide)]
        exact skipWs_encodeScalar v hv _
      have s4 : parseCore (fuel + 1) PMode.val (encodeScalarJson v ++ '\x7d' :: rest) =
          some (v, '\x7d' :: rest) :=
        parseCore_val_scalar v hv fuel _ rfl
      have s5 : skipWs ('\x7d' :: rest) = '\x7d' :: rest :=
        skipWs_cons_of_not_ws (by decide) _
      simp only [s1, s2, s3, s4, s5]
      rfl
    | cons f2 fr =>
      have e1 : encodeFieldsFlat ((k, v) :: f2 :: fr) ++ '\x7d' :: rest =
          '"' :: (escString k ++ '"' :: (':' :: ' ' :: (encodeScalarJson v ++
            ',' :: ' ' :: (encodeFieldsFlat (f2 :: fr) ++ '\x7d' :: rest)))) := by
        simp [encodeFieldsFlat]
      have hlen : fuel + ((k, v) :: f2 :: fr : List (List Char × Json)).length + 1 =
          (((fuel + fr.length + 1) + 1) + 1) := by
        simp only [List.length_cons]
        omega
      rw [hlen, e1, parseCore, if_pos rfl]
      have s1 := parseStrBody_full k
        (':' :: ' ' :: (encodeScalarJson v ++
          ',' :: ' ' :: (encodeFieldsFlat (f2 :: fr) ++ '\x7d' :: rest)))
      have s2 : skipWs (':' :: ' ' :: (encodeScalarJson v ++
          ',' :: ' ' :: (encodeFieldsFlat (f2 :: fr) ++ '\x7d' :: rest))) =
          ':' :: ' ' :: (encodeScalarJson v ++
            ',' :: ' ' :: (encodeFieldsFlat (f2 :: fr) ++ '\x7d' :: rest)) :=
        skipWs_cons_of_not_ws (by decide) _
      have s3 : skipWs (' ' :: (encodeScalarJson v ++
          ',' :: ' ' :: (encodeFieldsFlat (f2 :: fr) ++ '\x7d' :: rest))) =
          encodeScalarJson v ++
            ',' :: ' ' :: (encodeFieldsFlat (f2 :: fr) ++ '\x7d' :: rest) := by
        rw [skipWs_cons_ws (by decide)]
        exact skipWs_encodeScalar v hv _
      have s4 : parseCore ((fuel + fr.length + 1) + 1) PMode.val
          (encodeScalarJson v ++
            ',' :: ' ' :: (encodeFieldsFlat (f2 :: fr) ++ '\x7d' :: rest)) =
          some (v, ',' :: ' ' :: (encodeFieldsFlat (f2 :: fr) ++ '\x7d' :: rest)) :=
        parseCore_val_scalar v hv (fuel + fr.length + 1) _ rfl
      have s5 : skipWs (',' :: ' ' :: (encodeFieldsFlat (f2 :: fr) ++ '\x7d' :: rest)) =
          ',' :: ' ' :: (encodeFieldsFlat (f2 :: fr) ++ '\x7d' :: rest) :=
        skipWs_cons_of_not_ws (by decide) _
      have s6 : skipWs (' ' :: (encodeFieldsFlat (f2 :: fr) ++ '\x7d' :: rest)) =
          encodeFieldsFlat (f2 :: fr) ++ '\x7d' :: rest := by
        rw [skipWs_cons_ws (by decide)]
        obtain ⟨t, ht⟩ := encodeFields_cons_eq f2 fr
        rw [ht]
        show skipWs ('"' :: (t ++ '\x7d' :: rest)) = '"' :: (t ++ '\x7d' :: rest)
        exact skipWs_cons_of_not_ws (by decide) _
      have s7 : parseCore ((fuel + fr.length + 1) + 1) PMode.objItems
          (encodeFieldsFlat (f2 :: fr) ++ '\x7d' :: rest) =
          some (Json.obj (f2 :: fr), rest) := by
        have h7 := ih (fun p hp => h p (by simp [hp])) (by simp) fuel rest
        have e7 : fuel + (f2 :: fr : List (List Char × Json)).length + 1 =
            (fuel + fr.length + 1) + 1 := by
          simp only [List.length_cons]
          omega
        rw [e7] at h7
        exact h7
      simp only [s1, s2, s3, s4, s5]
      show (match parseCore ((fuel + fr.length + 1) + 1) PMode.objItems
          (skipWs (' ' :: (encodeFieldsFlat (f2 :: fr) ++ '\x7d' :: rest))) with
        | some (Json.obj fs, r6) => some (Json.obj ((k, v) :: fs), r6)
        | _ => none) = some (Json.obj ((k, v) :: f2 :: fr), rest)
      rw [s6, s7]

theorem parseCore_val_objEnc (fsl : List (List Char × Json))
    (h : ∀ p ∈ fsl, p.2.isScalar) (hne : fsl ≠ []) (fuel : Nat) (rest : List Char) :
    parseCore ((fuel + fsl.length + 1) + 1) PMode.val (dumpsFlatObj fsl ++ rest) =
      some (Json.obj fsl, rest) := by
  match fsl, hne with
  | q :: l, _ =>
    obtain ⟨t, ht⟩ := encodeFields_cons_eq q l
    have e1 : dumpsFlatObj (q :: l) ++ rest = '\x7b' :: ('"' :: (t ++ '\x7d' :: rest)) := by
      simp [dumpsFlatObj, ht]
    rw [e1]
    show parseCore (fuel + (q :: l : List (List Char × Json)).length + 1) PMode.objItems
      ('"' :: (t ++ '\x7d' :: rest)) = some (Json.obj (q :: l), rest)
    rw [show ('"' :: (t ++ '\x7d' :: rest)) = encodeFieldsFlat (q :: l) ++ '\x7d' :: rest from by
      simp [ht]]
    exact parseCore_objItems_enc (q :: l) h (by simp) fuel rest

theorem encodeFields_length_ge (fsl : List (List Char × Json)) :
    fsl.length ≤ (encodeFieldsFlat fsl).length := by
  induction fsl with
  | nil => simp [encodeFieldsFlat]
  | cons q l ih =>
    obtain ⟨k, v⟩ := q
    cases l with
    | nil => simp [encodeFieldsFlat]
    | cons f2 fr =>
      simp only [encodeFieldsFlat, List.length_cons, List.length_append] at ih ⊢
      omega

theorem dumpsFlatObj_length_ge (fsl : List (List Char × Json)) :
    fsl.length + 2 ≤ (dumpsFlatObj fsl).length := by
  have := encodeFields_length_ge fsl
  simp only [dumpsFlatObj, List.length_cons, List.length_append]
  simp
  omega

theorem pyLoads_dumpsFlat (fsl : List (List Char × Json))
    (h : ∀ p ∈ fsl, p.2.isScalar) (hne : fsl ≠ []) :
    pyLoads (dumpsFlatObj fsl) = some (Json.obj fsl) := by
  have hlen := dumpsFlatObj_length_ge fsl
  obtain ⟨k, hk⟩ := Nat.le.dest hlen
  have hsk : skipWs (dumpsFlatObj fsl) = dumpsFlatObj fsl := by
    show skipWs ('\x7b' :: (encodeFieldsFlat fsl ++ ['\x7d'])) =
      '\x7b' :: (encodeFieldsFlat fsl ++ ['\x7d'])
    exact skipWs_cons_of_not_ws (by decide) _
  have hp : parseCore ((dumpsFlatObj fsl).length + 1) PMode.val (dumpsFlatObj fsl) =
      some (Json.obj fsl, []) := by
    have harg : (dumpsFlatObj fsl).length + 1 = (((k + 1) + fsl.length + 1) + 1) := by omega
    rw [harg]
    have := parseCore_val_objEnc fsl h hne (k + 1) []
    simpa using this
  rw [pyLoads, hsk, hp]
  rfl

theorem recordFields_scalar (r : Record) : ∀ p ∈ recordFields r, p.2.isScalar := by
  intro p hp
  simp only [recordFields, List.mem_cons, List.not_mem_nil, or_false] at hp
  rcases hp with h|h|h|h|h|h|h|h|h|h|h|h|h|h|h|h|h|h|h|h|h <;> subst h <;> trivial

theorem pyLoads_dumpsRecord (r : Record) :
    pyLoads (dumpsRecord r) = some (recordJson r) :=
  pyLoads_dumpsFlat (recordFields r) (recordFields_scalar r) (by simp [recordFields])

end FHMP

namespace FHMP

/-! ## Helper lemmas: physical lines and stripping -/

theorem splitAux_cons (acc : List Char) (c : Char) (rest : List Char) :
    splitAux acc (c :: rest) =
      if c = nl then (acc.reverse ++ [nl]) :: splitAux [] rest
      else splitAux (c :: acc) rest := rfl

theorem splitAux_line (l : List Char) (hnl : nl ∉ l) :
    ∀ (acc rest : List Char),
    splitAux acc (l ++ nl :: rest) = ((acc.reverse ++ l) ++ [nl]) :: splitAux [] rest := by
  induction l with
  | nil =>
    intro acc rest
    simp [splitAux]
  | cons c t ih =>
    intro acc rest
    have hc : ¬ (c = nl) := fun h => hnl (by simp [h])
    rw [List.cons_append, splitAux_cons, if_neg hc,
      ih (fun h => hnl (by simp [h])) (c :: acc) rest]
    simp

theorem split_line_cons (l rest : List Char) (hnl : nl ∉ l) :
    splitAfterNewlines (l ++ nl :: rest) = (l ++ [nl]) :: splitAfterNewlines rest := by
  have := splitAux_line l hnl [] rest
  simpa [splitAfterNewlines] using this

theorem split_single_line (l : List Char) (hnl : nl ∉ l) :
    splitAfterNewlines (l ++ [nl]) = [l ++ [nl]] := by
  have := split_line_cons l [] hnl
  simpa [splitAfterNewlines, splitAux] using this

theorem splitAux_no_nl (l : List Char) (hnl : nl ∉ l) :
    ∀ acc, acc ≠ [] ∨ l ≠ [] → splitAux acc l = [acc.reverse ++ l] := by
  induction l with
  | nil =>
    intro acc hne
    have : ¬ acc.isEmpty := by
      cases acc with
      | nil => rcases hne with h | h <;> simp at h
      | cons a t => simp
    simp [splitAux, this]
  | cons c t ih =>
    intro acc _
    have hc : ¬ (c = nl) := fun h => hnl (by simp [h])
    simp only [splitAux, if_neg hc]
    rw [ih (fun h => hnl (by simp [h])) (c :: acc) (Or.inl (by simp))]
    simp

theorem split_no_nl (l : List Char) (hnl : nl ∉ l) (hne : l ≠ []) :
    splitAfterNewlines l = [l] := by
  have := splitAux_no_nl l hnl [] (Or.inr hne)
  simpa [splitAfterNewlines] using this

theorem splitAux_append_term (content : List Char) :
    content ≠ [] → content.getLast? = some nl →
    ∀ (acc rest : List Char),
    splitAux acc (content ++ rest) = splitAux acc content ++ splitAux [] rest := by
  induction content with
  | nil => intro h; exact absurd rfl h
  | cons c t ih =>
    intro _ hlast acc rest
    by_cases hc : c = nl
    · subst hc
      cases t with
      | nil =>
        simp [splitAux_cons, splitAux]
      | cons t1 t2 =>
        have hlast' : (t1 :: t2).getLast? = some nl := by
          rwa [List.getLast?_cons_cons] at hlast
        conv_lhs => rw [List.cons_append, splitAux_cons, if_pos rfl]
        conv_rhs => rw [splitAux_cons, if_pos rfl]
        rw [ih (by simp) hlast' [] rest]
        simp
    · cases t with
      | nil =>
        exfalso
        simp [List.getLast?] at hlast
        exact hc hlast
      | cons t1 t2 =>
        have hlast' : (t1 :: t2).getLast? = some nl := by
          rwa [List.getLast?_cons_cons] at hlast
        conv_lhs => rw [List.cons_append, splitAux_cons, if_neg hc]
        conv_rhs => rw [splitAux_cons, if_neg hc]
        exact ih (by simp) hlast' (c :: acc) rest

theorem wf_append_split (content line : List Char)
    (hwf : content = [] ∨ content.getLast? = some nl) :
    splitAfterNewlines (content ++ line) =
      splitAfterNewlines content ++ splitAfterNewlines line := by
  rcases hwf with h | h
  · subst h
    simp [splitAfterNewlines, splitAux]
  · have hne : content ≠ [] := by
      intro h0
      subst h0
      simp at h
    exact splitAux_append_term content hne h [] line

theorem pyStrip_cons_space (c : Char) (hc : pySpace c = true) (y : List Char) :
    pyStrip (c :: y) = pyStrip y := by
  simp [pyStrip, List.dropWhile_cons, hc]

theorem pyStrip_append_space (x : List Char) (c : Char) (hc : pySpace c = true) :
    pyStrip (x ++ [c]) = pyStrip x := by
  induction x with
  | nil => simp [pyStrip, List.dropWhile, hc]
  | cons a t ih =>
    by_cases ha : pySpace a = true
    · rw [List.cons_append, pyStrip_cons_space a ha, pyStrip_cons_space a ha, ih]
    · simp only [pyStrip, List.cons_append, List.dropWhile_cons, ha, if_neg, Bool.false_eq_true,
        if_false, List.reverse_cons]
      rw [show (t ++ [c]).reverse = c :: t.reverse from by simp]
      simp [List.dropWhile_cons, hc, ha]

theorem pyStrip_of_ends (a b : Char) (mid : List Char)
    (ha : pySpace a = false) (hb : pySpace b = false) :
    pyStrip (a :: (mid ++ [b])) = a :: (mid ++ [b]) := by
  simp [pyStrip, List.dropWhile_cons, ha, hb]

theorem pyStrip_all_space (s : List Char) (h : ∀ c ∈ s, pySpace c = true) :
    pyStrip s = [] := by
  have h1 : s.dropWhile pySpace = [] := by
    rw [List.dropWhile_eq_nil_iff]
    intro x hx
    simp [h x hx]
  simp [pyStrip, h1]

/-! ## Helper lemmas: the encoded record contains no newline -/

theorem nl_not_mem_escChar (c : Char) : nl ∉ escChar c := by
  unfold escChar
  split_ifs with h1 h2 h3 h4 h5 h6 h7 h8
  · decide
  · decide
  · decide
  · decide
  · decide
  · decide
  · decide
  · simp only [List.mem_cons, List.not_mem_nil, or_false]
    push_neg
    refine ⟨by decide, by decide, by decide, by decide, ?_, ?_⟩
    · exact (digitChar_ne_nl (by omega)).symm
    · exact (digitChar_ne_nl (by omega)).symm
  · simp only [List.mem_singleton]
    intro h
    exact h8 (by rw [← h]; decide)

theorem nl_not_mem_escString (s : List Char) : nl ∉ escString s := by
  induction s with
  | nil => simp [escString]
  | cons c t ih =>
    rw [escString_cons]
    intro hmem
    rcases List.mem_append.mp hmem with h | h
    · exact nl_not_mem_escChar c h
    · exact ih h

theorem nl_not_mem_natDigits (n : Nat) : nl ∉ natDigits n := by
  obtain ⟨ds, hds, _, hdig, _⟩ := natDigits_spec n
  rw [hds]
  intro hmem
  exact absurd (hdig nl hmem) (by decide)

theorem nl_not_mem_encodeScalar (j : Json) (h : j.isScalar) :
    nl ∉ encodeScalarJson j := by
  cases j with
  | null => decide
  | bool b => cases b <;> decide
  | num n =>
    show nl ∉ encodeInt n
    unfold encodeInt
    split_ifs
    · intro hmem
      rcases List.mem_cons.mp hmem with h | h
      · exact absurd h (by decide)
      · exact nl_not_mem_natDigits _ h
    · exact nl_not_mem_natDigits _
  | str s =>
    intro hmem
    show False
    rcases List.mem_cons.mp hmem with h | h
    · exact absurd h (by decide)
    · rcases List.mem_append.mp h with h | h
      · exact nl_not_mem_escString s h
      · exact absurd h (by decide)
  | arr xs => exact h.elim
  | obj fs => exact h.elim

theorem nl_not_mem_encodeFields (fsl : List (List Char × Json))
    (h : ∀ p ∈ fsl, p.2.isScalar) : nl ∉ encodeFieldsFlat fsl := by
  induction fsl with
  | nil => simp [encodeFieldsFlat]
  | cons q l ih =>
    obtain ⟨k, v⟩ := q
    have hv : v.isScalar := h (k, v) (by simp)
    cases l with
    | nil =>
      intro hmem
      rcases List.mem_cons.mp hmem with h0 | h0
      · exact absurd h0 (by decide)
      · rcases List.mem_append.mp h0 with h0 | h0
        · exact nl_not_mem_escString k h0
        · rcases List.mem_cons.mp h0 with h0 | h0
          · exact absurd h0 (by decide)
          · rcases List.mem_cons.mp h0 with h0 | h0
            · exact absurd h0 (by decide)
            · rcases List.mem_cons.mp h0 with h0 | h0
              · exact absurd h0 (by decide)
              · exact nl_not_mem_encodeScalar v hv h0
    | cons f2 fr =>
      intro hmem
      rcases List.mem_cons.mp hmem with h0 | h0
      · exact absurd h0 (by decide)
      · rcases List.mem_append.mp h0 with h0 | h0
        · exact nl_not_mem_escString k h0
        · rcases List.mem_cons.mp h0 with h0 | h0
          · exact absurd h0 (by decide)
          · rcases List.mem_cons.mp h0 with h0 | h0
            · exact absurd h0 (by decide)
            · rcases List.mem_cons.mp h0 with h0 | h0
              · exact absurd h0 (by decide)
              · rcases List.mem_append.mp h0 with h0 | h0
                · exact nl_not_mem_encodeScalar v hv h0
                · rcases List.mem_cons.mp h0 with h0 | h0
                  · exact absurd h0 (by decide)
                  · rcases List.mem_cons.mp h0 with h0 | h0
                    · exact absurd h0 (by decide)
                    · exact ih (fun p hp => h p (by simp [hp])) h0

theorem nl_not_mem_dumpsFlat (fsl : List (List Char × Json))
    (h : ∀ p ∈ fsl, p.2.isScalar) : nl ∉ dumpsFlatObj fsl := by
  intro hmem
  rcases List.mem_cons.mp hmem with h0 | h0
  · exact absurd h0 (by decide)
  · rcases List.mem_append.mp h0 with h0 | h0
    · exact nl_not_mem_encodeFields fsl h h0
    · exact absurd h0 (by decide)

theorem nl_not_mem_dumpsRecord (r : Record) : nl ∉ dumpsRecord r :=
  nl_not_mem_dumpsFlat (recordFields r) (recordFields_scalar r)

theorem pyStrip_dumpsRecord_line (r : Record) :
    pyStrip (dumpsRecord r ++ [nl]) = dumpsRecord r := by
  rw [pyStrip_append_space _ nl (by decide)]
  exact pyStrip_of_ends '\x7b' '\x7d' (encodeFieldsFlat (recordFields r))
    (by decide) (by decide)

end FHMP

namespace FHMP

/-! ## Helper lemmas: reading lines back -/

theorem readLine_recordLine (r : Record) :
    readLine (dumpsRecord r ++ [nl]) = some (recordJson r) := by
  simp only [readLine]
  rw [pyStrip_dumpsRecord_line]
  show pyLoads (dumpsRecord r) = some (recordJson r)
  exact pyLoads_dumpsRecord r

theorem readLine_junk (raw : List Char) (h2 : pyLoads (pyStrip raw) = none) :
    readLine (raw ++ [nl]) = none := by
  simp only [readLine]
  rw [pyStrip_append_space raw nl (by decide)]
  by_cases he : (pyStrip raw).isEmpty
  · simp [he]
  · simp [he, h2]

theorem readLine_blank (raw : List Char) (h : ∀ c ∈ raw, pySpace c = true) :
    readLine (raw ++ [nl]) = none := by
  simp only [readLine]
  rw [pyStrip_append_space raw nl (by decide), pyStrip_all_space raw h]
  rfl

theorem read_none : read_jsonl_records none = [] := rfl

theorem read_append_record (content : List Char) (r : Record)
    (hwf : content = [] ∨ content.getLast? = some nl) :
    read_jsonl_records (some (content ++ (dumpsRecord r ++ [nl]))) =
      read_jsonl_records (some content) ++ [recordJson r] := by
  have hsplit : splitAfterNewlines (content ++ (dumpsRecord r ++ [nl])) =
      splitAfterNewlines content ++ [dumpsRecord r ++ [nl]] := by
    rw [wf_append_split content _ hwf, split_single_line _ (nl_not_mem_dumpsRecord r)]
  show (splitAfterNewlines (content ++ (dumpsRecord r ++ [nl]))).filterMap readLine = _
  rw [hsplit, List.filterMap_append]
  congr 1
  rw [List.filterMap_cons, readLine_recordLine r]
  rfl

/-! ## Helper lemmas: mixed log files (valid, malformed and blank lines) -/

theorem renderLog_split (ls : List LogLine) (h : ∀ l ∈ ls, goodLine l) :
    splitAfterNewlines (renderLog ls) = ls.map renderLine := by
  induction ls with
  | nil => rfl
  | cons l rest ih =>
    have hline : ∃ body, renderLine l = body ++ [nl] ∧ nl ∉ body := by
      cases l with
      | valid r => exact ⟨dumpsRecord r, rfl, nl_not_mem_dumpsRecord r⟩
      | junk raw => exact ⟨raw, rfl, (h (LogLine.junk raw) (by simp)).1⟩
      | blank raw =>
        exact ⟨raw, rfl, fun hm => ((h (LogLine.blank raw) (by simp)) nl hm).2 rfl⟩
    obtain ⟨body, hb, hnb⟩ := hline
    show splitAfterNewlines (renderLine l ++ renderLog rest) = renderLine l :: rest.map renderLine
    rw [hb, show (body ++ [nl]) ++ renderLog rest = body ++ nl :: renderLog rest from by simp,
      split_line_cons _ _ hnb, ih (fun x hx => h x (by simp [hx]))]

theorem filterMap_readLine_renderLines (ls : List LogLine) (h : ∀ l ∈ ls, goodLine l) :
    (ls.map renderLine).filterMap readLine = expectedRecords ls := by
  induction ls with
  | nil => rfl
  | cons l rest ih =>
    rw [List.map_cons, List.filterMap_cons]
    have hr := ih (fun x hx => h x (by simp [hx]))
    cases l with
    | valid r =>
      rw [show renderLine (LogLine.valid r) = dumpsRecord r ++ [nl] from rfl,
        readLine_recordLine r, hr]
      rfl
    | junk raw =>
      have hg := h (LogLine.junk raw) (by simp)
      rw [show renderLine (LogLine.junk raw) = raw ++ [nl] from rfl,
        readLine_junk raw hg.2.2, hr]
      rfl
    | blank raw =>
      have hg := h (LogLine.blank raw) (by simp)
      rw [show renderLine (LogLine.blank raw) = raw ++ [nl] from rfl,
        readLine_blank raw (fun c hc => (hg c hc).1), hr]
      rfl

theorem setKey_recordFields (r : Record) (i : Nat) :
    setKey (recordFields r) idxKey (Json.num (i : Int)) =
      recordFields r ++ [(idxKey, Json.num (i : Int))] := by
  have hany : (recordFields r).any (fun p => p.1 == idxKey) = false := by
    simp only [recordFields, idxKey, List.any_cons, List.any_nil]
    decide
  unfold setKey
  rw [if_neg (by simp [hany])]

theorem loadIdxAux_renderLines (ls : List LogLine) (h : ∀ l ∈ ls, goodLine l) :
    ∀ i, loadIdxAux i (ls.map renderLine) = expectedIdxRecords i ls := by
  induction ls with
  | nil => intro i; rfl
  | cons l rest ih =>
    intro i
    rw [List.map_cons]
    have hr := ih (fun x hx => h x (by simp [hx])) (i + 1)
    show (match readLine (renderLine l) with
      | some (Json.obj fields) => [Json.obj (setKey fields idxKey (Json.num (i : Int)))]
      | _ => []) ++ loadIdxAux (i + 1) (rest.map renderLine) = expectedIdxRecords i (l :: rest)
    cases l with
    | valid r =>
      rw [show renderLine (LogLine.valid r) = dumpsRecord r ++ [nl] from rfl,
        readLine_recordLine r, hr]
      show Json.obj (setKey (recordFields r) idxKey (Json.num (i : Int))) ::
        expectedIdxRecords (i + 1) rest = _
      rw [setKey_recordFields r i]
      rfl
    | junk raw =>
      have hg := h (LogLine.junk raw) (by simp)
      rw [show renderLine (LogLine.junk raw) = raw ++ [nl] from rfl,
        readLine_junk raw hg.2.2, hr]
      rfl
    | blank raw =>
      have hg := h (LogLine.blank raw) (by simp)
      rw [show renderLine (LogLine.blank raw) = raw ++ [nl] from rfl,
        readLine_blank raw (fun c hc => (hg c hc).1), hr]
      rfl

end FHMP

namespace FHMP

/-! ## Helper lemmas: well-formed line lists (for indexed deletion) -/

theorem linesOk_cons_iff (x : List Char) (xs : List (List Char)) :
    linesOk (x :: xs) ↔
      lineOk x ∧ (xs = [] ∨ (x.getLast? = some nl ∧ linesOk xs)) := by
  cases xs with
  | nil => simp [linesOk]
  | cons y ys => simp [linesOk]

theorem linesOk_splitAux (s : List Char) : ∀ acc, nl ∉ acc → linesOk (splitAux acc s) := by
  induction s with
  | nil =>
    intro acc hacc
    by_cases h : acc.isEmpty
    · simp [splitAux, h, linesOk]
    · simp only [splitAux, h, Bool.false_eq_true, if_false]
      refine ⟨?_, ?_⟩
      · simp
        intro hc
        subst hc
        simp at h
      · intro hm
        exact hacc (by
          have hsub := List.dropLast_sublist acc.reverse
          have hm2 : nl ∈ acc.reverse := hsub.mem hm
          simpa using hm2)
  | cons c rest ih =>
    intro acc hacc
    by_cases hc : c = nl
    · subst hc
      rw [splitAux_cons, if_pos rfl, linesOk_cons_iff]
      refine ⟨⟨by simp, ?_⟩, ?_⟩
      · rw [List.dropLast_concat]
        intro hm
        exact hacc (by simpa using hm)
      · by_cases hres : splitAux [] rest = []
        · exact Or.inl hres
        · exact Or.inr ⟨by simp, ih [] (by simp)⟩
    · rw [splitAux_cons, if_neg hc]
      exact ih (c :: acc) (by
        intro hm
        rcases List.mem_cons.mp hm with h | h
        · exact hc h.symm
        · exact hacc h)

theorem linesOk_split (content : List Char) : linesOk (splitAfterNewlines content) :=
  linesOk_splitAux content [] (by simp)

theorem linesOk_tail (x : List Char) (xs : List (List Char)) (h : linesOk (x :: xs)) :
    linesOk xs := by
  rcases (linesOk_cons_iff x xs).mp h with ⟨_, h2 | ⟨_, h3⟩⟩
  · subst h2
    trivial
  · exact h3

theorem linesOk_eraseIdx (xs : List (List Char)) :
    ∀ i, linesOk xs → linesOk (xs.eraseIdx i) := by
  induction xs with
  | nil =>
    intro i _
    simp [List.eraseIdx]
    trivial
  | cons x xs ih =>
    intro i h
    cases i with
    | zero =>
      rw [List.eraseIdx_cons_zero]
      exact linesOk_tail x xs h
    | succ i =>
      rw [List.eraseIdx_cons_succ]
      rcases (linesOk_cons_iff x xs).mp h with ⟨h1, h2 | ⟨h3, h4⟩⟩
      · subst h2
        show linesOk [x]
        exact h1
      · rw [linesOk_cons_iff]
        refine ⟨h1, ?_⟩
        by_cases he : xs.eraseIdx i = []
        · exact Or.inl he
        · exact Or.inr ⟨h3, ih i h4⟩

theorem split_flatten (xs : List (List Char)) (h : linesOk xs) :
    splitAfterNewlines xs.flatten = xs := by
  induction xs with
  | nil => rfl
  | cons x xs ih =>
    rcases (linesOk_cons_iff x xs).mp h with ⟨⟨hne, hdl⟩, h2 | ⟨h3, h4⟩⟩
    · subst h2
      rw [show ([x] : List (List Char)).flatten = x from by simp]
      by_cases hterm : x.getLast? = some nl
      · have h6 : x.getLast hne = nl := by
          have h7 := List.getLast?_eq_getLast x hne
          rw [h7] at hterm
          exact Option.some.inj hterm
        have hx : x.dropLast ++ [nl] = x := by
          have h5 := List.dropLast_append_getLast hne
          rw [h6] at h5
          exact h5
        rw [← hx, split_single_line _ hdl]
      · have hnl : nl ∉ x := by
          intro hm
          have h5 := List.dropLast_append_getLast hne
          rw [← h5] at hm
          rcases List.mem_append.mp hm with hm | hm
          · exact hdl hm
          · have : nl = x.getLast hne := by simpa using hm
            apply hterm
            rw [List.getLast?_eq_getLast x hne, ← this]
        rw [split_no_nl x hnl hne]
    · have h6 : x.getLast hne = nl := by
        have h7 := List.getLast?_eq_getLast x hne
        rw [h7] at h3
        exact Option.some.inj h3
      have hgl : x.dropLast ++ [nl] = x := by
        have h5 := List.dropLast_append_getLast hne
        rw [h6] at h5
        exact h5
      show splitAfterNewlines (x ++ xs.flatten) = x :: xs
      rw [← hgl,
        show (x.dropLast ++ [nl]) ++ xs.flatten = x.dropLast ++ nl :: xs.flatten from by simp,
        split_line_cons _ _ hdl, hgl, ih h4]

end FHMP

namespace FHMP

/-! ## Claim theorems -/

/-- C1: appending any JSON-serializable export record with
`write_jsonl_record` to a well-formed log (missing, empty, or
newline-terminated — the invariant every app write maintains) and then
reading with `read_jsonl_records` yields the previously stored valid
records, unchanged and in file order, followed by the appended record as
the (hence non-empty) last element, equal to it field-for-field. -/
theorem c1_append_then_read (r : Record) (file : Option (List Char)) (h : wfJsonl file) :
    read_jsonl_records (write_jsonl_record r file) =
      read_jsonl_records file ++ [recordJson r] := by
  cases file with
  | none =>
    show read_jsonl_records (some (([] : List Char) ++ dumpsRecord r ++ [nl])) =
      [] ++ [recordJson r]
    rw [show ([] : List Char) ++ dumpsRecord r ++ [nl] = [] ++ (dumpsRecord r ++ [nl]) from
      by simp]
    rw [read_append_record [] r (Or.inl rfl)]
    rfl
  | some content =>
    show read_jsonl_records (some (content ++ dumpsRecord r ++ [nl])) = _
    rw [show content ++ dumpsRecord r ++ [nl] = content ++ (dumpsRecord r ++ [nl]) from
      by simp]
    exact read_append_record content r h

/-- Witness for C1 at a concrete record and a missing log file. -/
theorem c1_append_then_read_witness :
    wfJsonl none ∧
    read_jsonl_records (write_jsonl_record sampleRecord none) =
      read_jsonl_records none ++ [recordJson sampleRecord] :=
  ⟨trivial, c1_append_then_read sampleRecord none trivial⟩

end FHMP

namespace FHMP

/-- C3: for an existing log file and a target index that is negative or at
least the number of physical lines, `delete_record_and_image_by_index`
returns the failure result `(False, None)` without raising, and the
directory state (log file and images) is left unchanged. -/
theorem c3_out_of_range (content : List Char) (images : List (List Char)) (i : Int)
    (h : i < 0 ∨ ((splitAfterNewlines content).length : Int) ≤ i) :
    delete_record_and_image_by_index i (FS.mk (some content) images) =
      (some (false, none), FS.mk (some content) images) := by
  simp only [delete_record_and_image_by_index]
  rw [if_pos h]

/-- Witness for C3: index 5 on a one-line log. -/
theorem c3_out_of_range_witness :
    ((5 : Int) < 0 ∨ ((splitAfterNewlines (chars "1\n")).length : Int) ≤ 5) ∧
    delete_record_and_image_by_index 5 (FS.mk (some (chars "1\n")) []) =
      (some (false, none), FS.mk (some (chars "1\n")) []) :=
  ⟨by decide, c3_out_of_range (chars "1\n") [] 5 (by decide)⟩

/-- C4: on a log file mixing valid record lines, malformed lines and blank
lines, `read_jsonl_records` returns exactly the valid records in file order
(no exception is possible: the functions are total), and
`load_jsonl_with_index` returns the valid record objects each extended with
`_idx` equal to its zero-based physical line offset — skipped malformed and
blank lines still consume index slots. -/
theorem c4_mixed_lines (ls : List LogLine) (h : ∀ l ∈ ls, goodLine l) :
    read_jsonl_records (some (renderLog ls)) = expectedRecords ls ∧
    load_jsonl_with_index (some (renderLog ls)) = expectedIdxRecords 0 ls := by
  constructor
  · show (splitAfterNewlines (renderLog ls)).filterMap readLine = _
    rw [renderLog_split ls h]
    exact filterMap_readLine_renderLines ls h
  · show loadIdxAux 0 (splitAfterNewlines (renderLog ls)) = _
    rw [renderLog_split ls h]
    exact loadIdxAux_renderLines ls h 0

/-- Witness for C4 at a concrete four-line mixed log. -/
theorem c4_mixed_lines_witness :
    (∀ l ∈ sampleLines, goodLine l) ∧
    (read_jsonl_records (some (renderLog sampleLines)) = expectedRecords sampleLines ∧
      load_jsonl_with_index (some (renderLog sampleLines)) =
        expectedIdxRecords 0 sampleLines) := by
  have h : ∀ l ∈ sampleLines, goodLine l := by
    intro l hl
    simp only [sampleLines, List.mem_cons, List.not_mem_nil, or_false] at hl
    rcases hl with h | h | h | h <;> subst h
    · trivial
    · exact ⟨by decide, by decide, rfl⟩
    · intro c hc
      rcases List.mem_cons.mp hc with h | h
      · subst h
        exact ⟨by decide, by decide⟩
      · rcases List.mem_cons.mp h with h | h
        · subst h
          exact ⟨by decide, by decide⟩
        · exact absurd h (List.not_mem_nil c)
    · trivial
  exact ⟨h, c4_mixed_lines sampleLines h⟩

/-- C5: `delete_all_records_and_images` leaves a log on which
`read_jsonl_records` returns `[]`, removes exactly the image files whose
(lowercased) name ends in `.png` — none of the remaining names is a `.png`
— and returns the exact number of files removed. -/
theorem c5_delete_all (fs : FS) :
    read_jsonl_records (delete_all_records_and_images fs).2.log = [] ∧
    (delete_all_records_and_images fs).2.images =
      fs.images.filter (fun n => !endsPng n) ∧
    (delete_all_records_and_images fs).1 =
      fs.images.length - (delete_all_records_and_images fs).2.images.length ∧
    ∀ n ∈ (delete_all_records_and_images fs).2.images, endsPng n = false := by
  refine ⟨?_, rfl, ?_, ?_⟩
  · rcases fs with ⟨log, images⟩
    cases log <;> rfl
  · rcases fs with ⟨log, images⟩
    show (images.filter endsPng).length =
      images.length - (images.filter (fun n => !endsPng n)).length
    have hsum : (images.filter endsPng).length +
        (images.filter (fun n => !endsPng n)).length = images.length := by
      induction images with
      | nil => rfl
      | cons a t ih =>
        by_cases ha : endsPng a <;> simp [List.filter_cons, ha] <;> omega
    omega
  · intro n hn
    have := List.of_mem_filter hn
    simpa using this

end FHMP

namespace FHMP

/-- C6: `collect_export_record` builds `submission_id` as the date with
hyphens removed, an underscore, then the site with every maximal run of
non-word characters collapsed to one underscore and leading/trailing
underscores stripped; in particular date `2024-03-05` and site
`North Block #2` give `20240305_North_Block_2`. -/
theorem c6_submission_id (form : Form) :
    (collect_export_record form).submission_id =
      (form.date.filter (fun c => c != '-')) ++
        '_' :: stripUnderscores (subNonWordRuns form.site) ∧
    (collect_export_record sampleForm).submission_id =
      chars "20240305_North_Block_2" :=
  ⟨rfl, by decide⟩

/-- C7: whenever an "Other"-class flag is set with a blank paired text —
vegetation "Other" at step 1, dominant species "Other" at step 2, animals
"Other feral" severity > 0 at step 7 — `validate_step` at that step returns
not-ok; and a blank (empty or whitespace-only) site makes step 0 not-ok. -/
theorem c7_validate_blocks (form : Form) :
    (form.veg_other = true → (pyStrip form.vegetation_other).isEmpty = true →
      (validate_step form 1).1 = false) ∧
    (form.dom_other = true → (pyStrip form.dominant_other).isEmpty = true →
      (validate_step form 2).1 = false) ∧
    (0 < form.an_other → (pyStrip form.animals_other_text).isEmpty = true →
      (validate_step form 7).1 = false) ∧
    ((pyStrip form.site).isEmpty = true → (validate_step form 0).1 = false) := by
  refine ⟨?_, ?_, ?_, ?_⟩
  · intro h1 h2
    simp [validate_step, h1, h2]
  · intro h1 h2
    simp [validate_step, h1, h2]
  · intro h1 h2
    simp [validate_step, h1, h2]
  · intro h
    simp [validate_step, h]

/-- Witness for C7 at a form with all "Other" flags set, blank texts, and a
whitespace-only site. -/
theorem c7_validate_blocks_witness :
    (blankForm.veg_other = true ∧ (pyStrip blankForm.vegetation_other).isEmpty = true ∧
      blankForm.dom_other = true ∧ (pyStrip blankForm.dominant_other).isEmpty = true ∧
      0 < blankForm.an_other ∧ (pyStrip blankForm.animals_other_text).isEmpty = true ∧
      (pyStrip blankForm.site).isEmpty = true) ∧
    (validate_step blankForm 1).1 = false ∧
    (validate_step blankForm 2).1 = false ∧
    (validate_step blankForm 7).1 = false ∧
    (validate_step blankForm 0).1 = false :=
  ⟨⟨rfl, rfl, rfl, rfl, by decide, rfl, rfl⟩,
    (c7_validate_blocks blankForm).1 rfl rfl,
    (c7_validate_blocks blankForm).2.1 rfl rfl,
    (c7_validate_blocks blankForm).2.2.1 (by decide) rfl,
    (c7_validate_blocks blankForm).2.2.2 rfl⟩

/-- C8: in the Finish & Export handler, when rendering the summary image
fails, no record is produced, the error propagates (the handler yields no
result), and the log is unchanged — `write_jsonl_record` runs only after a
successful render. -/
theorem c8_render_failure_no_append (form : Form) (fs : FS) :
    (finishExportHandler form true fs).1 = none ∧
    (finishExportHandler form true fs).2.log = fs.log :=
  ⟨rfl, rfl⟩

/-- C9: in `collect_export_record`, when the paired free text is blank
(empty or whitespace-only after stripping), no `Other:<text>` entry is
appended: the flattened strings contain exactly the selected non-"Other"
category names. -/
theorem c9_other_blank_skipped (form : Form) :
    ((pyStrip form.vegetation_other).isEmpty = true →
      (collect_export_record form).vegetation = joinSemi (
        (if form.veg_forest then [chars "Forest"] else []) ++
        (if form.veg_woodland then [chars "Woodland"] else []) ++
        (if form.veg_shrubland then [chars "Shrubland"] else []))) ∧
    ((pyStrip form.dominant_other).isEmpty = true →
      (collect_export_record form).dominant_species = joinSemi (
        (if form.dom_jarrah then [chars "Jarrah"] else []) ++
        (if form.dom_marri then [chars "Marri"] else []) ++
        (if form.dom_karri then [chars "Karri"] else []) ++
        (if form.dom_wandoo then [chars "Wandoo"] else []) ++
        (if form.dom_tingle then [chars "Tingle"] else []))) := by
  constructor
  · intro h
    simp [collect_export_record, vegListOf, h]
  · intro h
    simp [collect_export_record, domListOf, h]

/-- Witness for C9 at a form with "Other" checked and blank paired texts. -/
theorem c9_other_blank_skipped_witness :
    ((pyStrip blankForm.vegetation_other).isEmpty = true ∧
      (pyStrip blankForm.dominant_other).isEmpty = true ∧
      blankForm.veg_other = true ∧ blankForm.dom_other = true) ∧
    (collect_export_record blankForm).vegetation = joinSemi (
      (if blankForm.veg_forest then [chars "Forest"] else []) ++
      (if blankForm.veg_woodland then [chars "Woodland"] else []) ++
      (if blankForm.veg_shrubland then [chars "Shrubland"] else [])) ∧
    (collect_export_record blankForm).dominant_species = joinSemi (
      (if blankForm.dom_jarrah then [chars "Jarrah"] else []) ++
      (if blankForm.dom_marri then [chars "Marri"] else []) ++
      (if blankForm.dom_karri then [chars "Karri"] else []) ++
      (if blankForm.dom_wandoo then [chars "Wandoo"] else []) ++
      (if blankForm.dom_tingle then [chars "Tingle"] else [])) :=
  ⟨⟨rfl, rfl, rfl, rfl⟩,
    (c9_other_blank_skipped blankForm).1 rfl,
    (c9_other_blank_skipped blankForm).2 rfl⟩

/-- C10: when the log file does not exist, `read_jsonl_records` and
`load_jsonl_with_index` return `[]` without raising, and
`delete_record_and_image_by_index` returns `(False, None)` for every index,
leaving the state unchanged — it neither creates the file nor touches the
images. -/
theorem c10_missing_file (images : List (List Char)) (i : Int) :
    read_jsonl_records none = [] ∧
    load_jsonl_with_index none = [] ∧
    delete_record_and_image_by_index i (FS.mk none images) =
      (some (false, none), FS.mk none images) :=
  ⟨rfl, rfl, rfl⟩

end FHMP

namespace FHMP

/-- C2 counterexample: the claim "for every log file and every in-range
index, delete succeeds (returns True)" is false.  On a log whose line 0 is
the JSON object with `summary_image` equal to the number `1` — truthy but
not a string — `os.path.join(img_dir, img_to_delete)` raises `TypeError`
outside the `try` block, so the call raises instead of returning `True`
(modelled by the `none` outcome), even though index 0 is in range. -/
theorem c2_counterexample :
    (0 : Int) ≤ 0 ∧
    (0 : Int) < ((splitAfterNewlines c2badContent).length : Int) ∧
    (delete_record_and_image_by_index 0 (FS.mk (some c2badContent) [])).1 = none :=
  ⟨by decide, by decide, rfl⟩

/-- C2 (amended): for every existing log file and every in-range index `i`,
provided the target line does not trigger the uncaught `TypeError` (that is,
when the line parses to a JSON object, its `summary_image` value is a
string, absent, or falsy), `delete_record_and_image_by_index i` returns
success (`True`), and the rewritten log consists of exactly the original
physical lines except line `i`, in their original relative order, so the
line count decreases by exactly one. -/
theorem c2_delete_valid_index (fs : FS) (content : List Char) (i : Int)
    (hlog : fs.log = some content)
    (h0 : 0 ≤ i)
    (hlt : i < ((splitAfterNewlines content).length : Int))
    (hact : lineImgAction ((splitAfterNewlines content).getD i.toNat []) ≠ none) :
    (∃ img, (delete_record_and_image_by_index i fs).1 = some (true, img)) ∧
    ∃ nc, (delete_record_and_image_by_index i fs).2.log = some nc ∧
      splitAfterNewlines nc = (splitAfterNewlines content).eraseIdx i.toNat ∧
      (splitAfterNewlines nc).length + 1 = (splitAfterNewlines content).length := by
  rcases fs with ⟨log, images⟩
  simp only at hlog
  subst hlog
  have hcond : ¬ (i < 0 ∨ ((splitAfterNewlines content).length : Int) ≤ i) := by omega
  have hsf : splitAfterNewlines ((splitAfterNewlines content).eraseIdx i.toNat).flatten =
      (splitAfterNewlines content).eraseIdx i.toNat :=
    split_flatten _ (linesOk_eraseIdx _ _ (linesOk_split content))
  have hlen : ((splitAfterNewlines content).eraseIdx i.toNat).length + 1 =
      (splitAfterNewlines content).length := by
    have h1 : i.toNat < (splitAfterNewlines content).length := by omega
    rw [List.length_eraseIdx_of_lt h1]
    omega
  have hlog2 : (delete_record_and_image_by_index i (FS.mk (some content) images)).2.log =
      some ((splitAfterNewlines content).eraseIdx i.toNat).flatten := by
    simp only [delete_record_and_image_by_index]
    rw [if_neg hcond]
    cases lineImgAction ((splitAfterNewlines content).getD i.toNat []) with
    | none => rfl
    | some o =>
      cases o with
      | none => rfl
      | some name => rfl
  have hok : ∃ img,
      (delete_record_and_image_by_index i (FS.mk (some content) images)).1 =
        some (true, img) := by
    cases hres : lineImgAction ((splitAfterNewlines content).getD i.toNat []) with
    | none => exact absurd hres hact
    | some o =>
      cases o with
      | none =>
        refine ⟨none, ?_⟩
        simp only [delete_record_and_image_by_index]
        rw [if_neg hcond, hres]
      | some name =>
        refine ⟨some name, ?_⟩
        simp only [delete_record_and_image_by_index]
        rw [if_neg hcond, hres]
  exact ⟨hok, ⟨_, hlog2, hsf, by rw [hsf]; exact hlen⟩⟩

/-- Witness for the amended C2: deleting line 0 of the two-line log
`"1\n2\n"` succeeds and leaves exactly the second line. -/
theorem c2_delete_valid_index_witness :
    ((FS.mk (some c2twoLines) []).log = some c2twoLines ∧ (0 : Int) ≤ 0 ∧
      (0 : Int) < ((splitAfterNewlines c2twoLines).length : Int) ∧
      lineImgAction ((splitAfterNewlines c2twoLines).getD (0 : Int).toNat []) ≠ none) ∧
    ((∃ img, (delete_record_and_image_by_index 0 (FS.mk (some c2twoLines) [])).1 =
        some (true, img)) ∧
      ∃ nc, (delete_record_and_image_by_index 0 (FS.mk (some c2twoLines) [])).2.log =
          some nc ∧
        splitAfterNewlines nc = (splitAfterNewlines c2twoLines).eraseIdx (0 : Int).toNat ∧
        (splitAfterNewlines nc).length + 1 = (splitAfterNewlines c2twoLines).length) :=
  ⟨⟨rfl, by decide, by decide, by decide⟩,
    c2_delete_valid_index (FS.mk (some c2twoLines) []) c2twoLines 0 rfl
      (by decide) (by decide) (by decide)⟩

end FHMP
